import Mathlib

/-!
# Verification of the ice-scraper event tracking and synchronization engine

Shallow embedding of the Go sources (`ice-events.go`, `calendar-event.go`,
`booking-api.go`, the day-scan/auth files) of the `mhp/ice-scraper`
repository, together with proofs and refutations of the specified
properties.

Conventions of the embedding:
* Go strings are Lean `String`s; raw byte strings (session identifiers fed
  to the base-32 identifier encoder) are `List Nat` with each element
  `< 256`.
* `time.Time` instants are modelled as `Int` seconds since the Unix epoch;
  `t.Before(u)` is `t < u`.  The local civil timezone is modelled at fixed
  zero offset (the code's UTC fallback); every property proved here depends
  only on the ordering of instants, never on the offset itself.
* A bolt bucket of sub-buckets is an association list sorted by key
  (bolt iterates keys in ascending byte order); the snapshot sequence of a
  session bucket is a Lean list, `NextSequence`/`Put` being a tail append.
* Calls with external effects (calendar HTTP writes, the token exchange)
  are modelled by explicit action traces or by an outcome parameter.
-/

namespace IceScraper

/-- `EventInfo` from `booking-api.go`: the per-session record decoded from
the booking API. -/
structure EventInfo where
  SessionId           : String
  ProductName         : String
  Location            : String
  StartTime           : String
  EndTime             : String
  TotalSpaces         : Int
  AvailableSpaces     : Int
  CapacityFreeAcademy : Int
  AvailableFreeSpaces : Int
  deriving DecidableEq, Repr

/-- `timestampedEventInfo` from `ice-events.go`: the stored snapshot, the
`EventInfo` plus the observation timestamp and the cancellation flag. -/
structure TimestampedEventInfo where
  info      : EventInfo
  UpdatedAt : Int
  Cancelled : Bool
  deriving DecidableEq, Repr

/-- The nine-field comparison of `updateEvent` (`ice-events.go`): the new
record `ev` against the latest stored snapshot `lastEv`.  `true` means all
nine comparable fields coincide and nothing is written. -/
def sameFields (ev lastEv : TimestampedEventInfo) : Bool :=
  ev.info.ProductName == lastEv.info.ProductName &&
  ev.info.Location == lastEv.info.Location &&
  ev.info.StartTime == lastEv.info.StartTime &&
  ev.info.EndTime == lastEv.info.EndTime &&
  ev.info.TotalSpaces == lastEv.info.TotalSpaces &&
  ev.info.AvailableSpaces == lastEv.info.AvailableSpaces &&
  ev.info.CapacityFreeAcademy == lastEv.info.CapacityFreeAcademy &&
  ev.info.AvailableFreeSpaces == lastEv.info.AvailableFreeSpaces &&
  ev.Cancelled == lastEv.Cancelled

/-- One session bucket: the ordered, append-only sequence of snapshots. -/
abbrev SessionSeq := List TimestampedEventInfo

/-- The `events` bucket of a day: session sub-buckets keyed by session
identifier, kept in ascending key order as bolt stores them. -/
abbrev EventsStore := List (String × SessionSeq)

/-- Bucket lookup: the sub-bucket for key `sid`, `none` when absent. -/
def lookupSession : EventsStore → String → Option SessionSeq
  | [], _ => none
  | (k, v) :: rest, sid => if sid = k then some v else lookupSession rest sid

/-- `CreateBucketIfNotExists` on the events bucket: inserts an empty
session bucket at its sorted position when the key is absent, returns the
store unchanged when it is present. -/
def ensureSession : EventsStore → String → EventsStore
  | [], sid => [(sid, [])]
  | (k, v) :: rest, sid =>
    if sid = k then (k, v) :: rest
    else if sid < k then (sid, []) :: (k, v) :: rest
    else (k, v) :: ensureSession rest sid

/-- `Put` under the next sequence number of a session bucket: appends one
snapshot at the end of the session's sequence. -/
def appendSnapshot : EventsStore → String → TimestampedEventInfo → EventsStore
  | [], sid, ev => [(sid, [ev])]
  | (k, v) :: rest, sid, ev =>
    if sid = k then (k, v ++ [ev]) :: rest
    else (k, v) :: appendSnapshot rest sid ev

/-- `getMostRecentDetails` from `ice-events.go`: the last entry of a
session bucket, `none` standing for the `ErrNoSuchEvent` error of an empty
bucket. -/
def getMostRecentDetails (b : SessionSeq) : Option TimestampedEventInfo :=
  b.getLast?

/-- Externally visible steps taken by `updateEvent`, in program order:
the calendar-reconciliation attempt (`optionallyUpdateCalendar`) and the
local write of the snapshot (`b.Put`). -/
inductive Action where
  | syncAttempt (sid : String)
  | storeWrite (sid : String)
  deriving DecidableEq, Repr

/-- Result of `updateEvent`: the updated events bucket plus the trace of
externally visible steps in the order the code performs them. -/
structure UpdateResult where
  store   : EventsStore
  actions : List Action
  deriving Repr

/-- `updateEvent` from `ice-events.go`: ensure a bucket for the session,
compare the incoming record against the latest stored snapshot on the nine
comparable fields, and if this is the first snapshot or any field differs,
call `optionallyUpdateCalendar` and then append the record under the next
sequence number.  When all nine fields coincide it returns without
writing. -/
def updateEvent (store : EventsStore) (ev : TimestampedEventInfo) : UpdateResult :=
  let sid := ev.info.SessionId
  let store1 := ensureSession store sid
  match getMostRecentDetails ((lookupSession store1 sid).getD []) with
  | some lastEv =>
    if sameFields ev lastEv then ⟨store1, []⟩
    else ⟨appendSnapshot store1 sid ev, [.syncAttempt sid, .storeWrite sid]⟩
  | none => ⟨appendSnapshot store1 sid ev, [.syncAttempt sid, .storeWrite sid]⟩

/-- Keys of an events bucket in stored order. -/
def storeKeys : EventsStore → List String
  | [] => []
  | (k, _) :: rest => k :: storeKeys rest

/-- The bolt invariant on a bucket of sub-buckets: keys strictly ascending
(hence unique), as the B-tree keeps them. -/
def SortedKeys (store : EventsStore) : Prop :=
  (storeKeys store).Pairwise (· < ·)

/-- The invariant that `updateEvent` maintains on every store it writes:
each stored snapshot carries the session identifier of the bucket that
holds it (snapshots are always `Put` under their own `ev.SessionId`). -/
def WellKeyed (store : EventsStore) : Prop :=
  ∀ p ∈ store, ∀ ev ∈ p.2, ev.info.SessionId = p.1

theorem lookupSession_eq_none_iff {store : EventsStore} {sid : String} :
    lookupSession store sid = none ↔ sid ∉ storeKeys store := by
  induction store with
  | nil => simp [lookupSession, storeKeys]
  | cons p rest ih =>
    obtain ⟨k, v⟩ := p
    by_cases hk : sid = k
    · simp [lookupSession, storeKeys, hk]
    · simp [lookupSession, storeKeys, hk, ih, Ne.symm hk]

theorem mem_storeKeys_of_lookup {store : EventsStore} {sid : String} {v : SessionSeq}
    (h : lookupSession store sid = some v) : sid ∈ storeKeys store := by
  by_contra hmem
  rw [← lookupSession_eq_none_iff] at hmem
  rw [hmem] at h
  exact Option.noConfusion h

theorem sortedKeys_cons {k : String} {v : SessionSeq} {rest : EventsStore}
    (h : SortedKeys ((k, v) :: rest)) :
    (∀ q ∈ storeKeys rest, k < q) ∧ SortedKeys rest := by
  have h' : List.Pairwise (· < ·) (k :: storeKeys rest) := h
  exact ⟨(List.pairwise_cons.mp h').1, (List.pairwise_cons.mp h').2⟩

theorem lookupSession_ensure_self {store : EventsStore} {sid : String}
    (hs : SortedKeys store) :
    lookupSession (ensureSession store sid) sid
      = some ((lookupSession store sid).getD []) := by
  induction store with
  | nil => simp [ensureSession, lookupSession]
  | cons p rest ih =>
    obtain ⟨k, v⟩ := p
    obtain ⟨hlt, hrest⟩ := sortedKeys_cons hs
    by_cases hk : sid = k
    · simp [ensureSession, lookupSession, hk]
    · by_cases hlt2 : sid < k
      · have hnone : lookupSession rest sid = none := by
          rw [lookupSession_eq_none_iff]
          intro hmem
          exact absurd (lt_trans hlt2 (hlt sid hmem)) (lt_irrefl sid)
        simp [ensureSession, lookupSession, hk, hlt2, hnone]
      · simp [ensureSession, lookupSession, hk, hlt2, ih hrest]

theorem ensureSession_of_mem {store : EventsStore} {sid : String} {v : SessionSeq}
    (hs : SortedKeys store) (h : lookupSession store sid = some v) :
    ensureSession store sid = store := by
  induction store with
  | nil => simp [lookupSession] at h
  | cons p rest ih =>
    obtain ⟨k, w⟩ := p
    obtain ⟨hlt, hrest⟩ := sortedKeys_cons hs
    by_cases hk : sid = k
    · simp [ensureSession, hk]
    · simp only [lookupSession, if_neg hk] at h
      have hmem := mem_storeKeys_of_lookup h
      have hklt : ¬ sid < k := fun hcon =>
        absurd (lt_trans hcon (hlt sid hmem)) (lt_irrefl sid)
      simp [ensureSession, hk, hklt, ih hrest h]

theorem lookupSession_append_self {store : EventsStore} {sid : String} {v : SessionSeq}
    (ev : TimestampedEventInfo) (h : lookupSession store sid = some v) :
    lookupSession (appendSnapshot store sid ev) sid = some (v ++ [ev]) := by
  induction store with
  | nil => simp [lookupSession] at h
  | cons p rest ih =>
    obtain ⟨k, w⟩ := p
    by_cases hk : sid = k
    · simp only [lookupSession, if_pos hk] at h
      cases h
      simp [appendSnapshot, lookupSession, hk]
    · simp only [lookupSession, if_neg hk] at h
      simp [appendSnapshot, lookupSession, hk, ih h]

theorem lookupSession_append_other {store : EventsStore} {sid q : String}
    (ev : TimestampedEventInfo) (h : q ≠ sid) :
    lookupSession (appendSnapshot store sid ev) q = lookupSession store q := by
  induction store with
  | nil => simp [appendSnapshot, lookupSession, h]
  | cons p rest ih =>
    obtain ⟨k, w⟩ := p
    by_cases hk : sid = k
    · subst hk
      simp [appendSnapshot, lookupSession, if_neg h]
    · by_cases hq : q = k <;> simp [appendSnapshot, lookupSession, hk, hq, ih]

theorem lookupSession_ensure_other {store : EventsStore} {sid q : String}
    (h : q ≠ sid) :
    lookupSession (ensureSession store sid) q = lookupSession store q := by
  induction store with
  | nil => simp [ensureSession, lookupSession, h]
  | cons p rest ih =>
    obtain ⟨k, w⟩ := p
    by_cases hk : sid = k
    · simp [ensureSession, hk]
    · by_cases hlt : sid < k
      · simp [ensureSession, lookupSession, hk, hlt, if_neg h]
      · by_cases hq : q = k <;> simp [ensureSession, lookupSession, hk, hlt, hq, ih]

theorem updateEvent_eq_of_same {store : EventsStore} {ev lastEv : TimestampedEventInfo}
    (hs : SortedKeys store)
    (hlast : getMostRecentDetails ((lookupSession store ev.info.SessionId).getD []) = some lastEv)
    (hsame : sameFields ev lastEv = true) :
    updateEvent store ev = ⟨store, []⟩ := by
  have h1 := @lookupSession_ensure_self store ev.info.SessionId hs
  have hne : (lookupSession store ev.info.SessionId).getD [] ≠ [] := by
    intro hnil
    rw [hnil] at hlast
    simp [getMostRecentDetails] at hlast
  have hmem : lookupSession store ev.info.SessionId
      = some ((lookupSession store ev.info.SessionId).getD []) := by
    cases hl : lookupSession store ev.info.SessionId with
    | none => rw [hl] at hne; simp at hne
    | some v => simp [hl]
  have hens : ensureSession store ev.info.SessionId = store := ensureSession_of_mem hs hmem
  unfold updateEvent
  simp [hens, ← hmem, hlast, hsame]

theorem updateEvent_eq_of_diff {store : EventsStore} {ev : TimestampedEventInfo}
    (hs : SortedKeys store)
    (hdiff : ∀ lastEv,
      getMostRecentDetails ((lookupSession store ev.info.SessionId).getD []) = some lastEv →
      sameFields ev lastEv = false) :
    updateEvent store ev =
      ⟨appendSnapshot (ensureSession store ev.info.SessionId) ev.info.SessionId ev,
        [.syncAttempt ev.info.SessionId, .storeWrite ev.info.SessionId]⟩ := by
  have h1 := @lookupSession_ensure_self store ev.info.SessionId hs
  unfold updateEvent
  cases hlast : getMostRecentDetails ((lookupSession store ev.info.SessionId).getD []) with
  | none => simp [h1, hlast]
  | some lastEv => simp [h1, hlast, hdiff lastEv hlast]

/-- **C1.** For every session and incoming record, `updateEvent` appends a
new snapshot to the session's stored sequence only if the record differs
from the immediately preceding snapshot in at least one of the nine
comparable fields; when the nine-field tuple is equal it returns without
writing, and when a snapshot is appended the sequence becomes the old
sequence with the incoming record at the end, so the last element is the
current state. -/
theorem updateEvent_minimal_diff_trail (store : EventsStore) (ev : TimestampedEventInfo)
    (hs : SortedKeys store) :
    ((∃ lastEv,
        getMostRecentDetails ((lookupSession store ev.info.SessionId).getD []) = some lastEv
        ∧ sameFields ev lastEv = true) →
      (updateEvent store ev).store = store ∧ (updateEvent store ev).actions = []) ∧
    ((∀ lastEv,
        getMostRecentDetails ((lookupSession store ev.info.SessionId).getD []) = some lastEv
        → sameFields ev lastEv = false) →
      lookupSession (updateEvent store ev).store ev.info.SessionId
        = some (((lookupSession store ev.info.SessionId).getD []) ++ [ev])
      ∧ getMostRecentDetails (((lookupSession store ev.info.SessionId).getD []) ++ [ev])
        = some ev) := by
  constructor
  · rintro ⟨lastEv, hlast, hsame⟩
    rw [updateEvent_eq_of_same hs hlast hsame]
    exact ⟨rfl, rfl⟩
  · intro hdiff
    rw [updateEvent_eq_of_diff hs hdiff]
    refine ⟨?_, ?_⟩
    · exact lookupSession_append_self ev (lookupSession_ensure_self hs)
    · simp [getMostRecentDetails]

/-- Concrete witness for C1: a store holding one session with one snapshot,
updated by a record that differs in `AvailableSpaces`; the sequence becomes
the two-element trail ending in the incoming record. -/
theorem updateEvent_minimal_diff_trail_witness :
    let ev0 : TimestampedEventInfo :=
      ⟨⟨"s1", "Skate", "Rink", "10:00:00", "11:00:00", 50, 5, 10, 2⟩, 100, false⟩
    let ev1 : TimestampedEventInfo :=
      ⟨⟨"s1", "Skate", "Rink", "10:00:00", "11:00:00", 50, 3, 10, 2⟩, 200, false⟩
    lookupSession (updateEvent [("s1", [ev0])] ev1).store ev1.info.SessionId
      = some ((lookupSession [("s1", [ev0])] ev1.info.SessionId).getD [] ++ [ev1])
    ∧ (lookupSession [("s1", [ev0])] ev1.info.SessionId).getD [] ++ [ev1] = [ev0, ev1] := by
  intro ev0 ev1
  refine ⟨?_, rfl⟩
  exact ((updateEvent_minimal_diff_trail [("s1", [ev0])] ev1
      (by simp [SortedKeys, storeKeys])).2
    (by intro lastEv hlast; simp [getMostRecentDetails, lookupSession] at hlast
        rw [← hlast]; decide)).1

/-- Formalisation of the ordering asserted by the spec for C2: in a trace
of externally visible steps, every calendar-reconciliation attempt for a
session is preceded by the local store write for that session.  `written`
accumulates the sessions written so far. -/
def writesBeforeSyncs : List String → List Action → Bool
  | _, [] => true
  | written, Action.storeWrite sid :: rest => writesBeforeSyncs (sid :: written) rest
  | written, Action.syncAttempt sid :: rest =>
      written.contains sid && writesBeforeSyncs written rest

/-- **C2, counterexample.**  The claim asserts that a new or changed
snapshot is committed to local persistence before calendar reconciliation
is attempted for it.  On a fresh session (empty store) `updateEvent`
performs the calendar sync attempt first and only then writes the
snapshot, so the claimed ordering is violated at this concrete input. -/
theorem updateEvent_commit_before_sync_false :
    writesBeforeSyncs []
      (updateEvent []
        ⟨⟨"s1", "Skate", "Rink", "10:00:00", "11:00:00", 50, 5, 10, 2⟩, 100, false⟩).actions
      = false := by
  decide

/-- **C2, amended.**  Within one `updateEvent` invocation, change detection
completes first and decides whether anything external happens at all; when
the record is new or changed, the calendar-reconciliation attempt is made
*before* the local snapshot write (not after a commit), and the write
invariably follows the sync attempt in the same invocation — the sync
outcome is ignored, so a failed sync never suppresses the local write. -/
theorem updateEvent_sync_then_write (store : EventsStore) (ev : TimestampedEventInfo) :
    (updateEvent store ev).actions = []
    ∨ (updateEvent store ev).actions
        = [Action.syncAttempt ev.info.SessionId, Action.storeWrite ev.info.SessionId] := by
  unfold updateEvent
  cases hlast : getMostRecentDetails
      ((lookupSession (ensureSession store ev.info.SessionId) ev.info.SessionId).getD []) with
  | none => right; simp [hlast]
  | some lastEv =>
    by_cases hsf : sameFields ev lastEv
    · left; simp [hlast, hsf]
    · right; simp [hlast, hsf]

/-! ## Wall-clock time resolution (`calendar-event.go`)

`parseTimeLocally` glues a `YYYY-MM-DD` day key and a `HH:MM:SS`
time-of-day string and parses them with Go's reference layout
`2006-01-02 15:04:05` in the local civil timezone.  The embedding maps a
successfully parsed civil time to seconds since the Unix epoch at fixed
zero offset (the code's UTC fallback when the timezone database is
unavailable); the verified properties depend only on the ordering of the
resulting instants.  Strings that do not match the fixed-width layout or
denote an invalid civil date/time parse to `none` (Go returns an error). -/

/-- Numeric value of a decimal digit character, `none` otherwise. -/
def digitVal : Char → Option Nat :=
  fun c => if c.isDigit then some (c.toNat - 48) else none

/-- Two decimal digits as a number. -/
def parse2 (a b : Char) : Option Nat :=
  match digitVal a, digitVal b with
  | some x, some y => some (10 * x + y)
  | _, _ => none

/-- Four decimal digits as a number. -/
def parse4 (a b c d : Char) : Option Nat :=
  match digitVal a, digitVal b, digitVal c, digitVal d with
  | some w, some x, some y, some z => some (1000 * w + 100 * x + 10 * y + z)
  | _, _, _, _ => none

/-- Gregorian leap-year rule, as in Go's `time` package. -/
def isLeapYear (y : Int) : Bool :=
  (y % 4 == 0 && y % 100 != 0) || y % 400 == 0

/-- Number of days in a month of a given year. -/
def daysInMonth (y : Int) (m : Nat) : Nat :=
  match m with
  | 2 => if isLeapYear y then 29 else 28
  | 4 | 6 | 9 | 11 => 30
  | _ => 31

/-- Days from the civil epoch 1970-01-01 to the civil date `y-m-d`
(proleptic Gregorian), the standard days-from-civil computation. -/
def daysFromCivil (y : Int) (m d : Nat) : Int :=
  let yAdj : Int := if m ≤ 2 then y - 1 else y
  let era : Int := Int.ediv yAdj 400
  let yoe : Int := yAdj - era * 400
  let mp : Int := (Int.ofNat m + 9) % 12
  let doy : Int := Int.ediv (153 * mp + 2) 5 + Int.ofNat d - 1
  let doe : Int := yoe * 365 + Int.ediv yoe 4 - Int.ediv yoe 100 + doy
  era * 146097 + doe - 719468

/-- Parse a `YYYY-MM-DD` day key to a day number since the epoch. -/
def parseDate (s : String) : Option Int :=
  match s.toList with
  | [a, b, c, d, h1, e, f, h2, g, h] =>
    if h1 == '-' && h2 == '-' then
      match parse4 a b c d, parse2 e f, parse2 g h with
      | some y, some m, some dd =>
        if 1 ≤ m && m ≤ 12 && 1 ≤ dd && dd ≤ daysInMonth (Int.ofNat y) m then
          some (daysFromCivil (Int.ofNat y) m dd)
        else none
      | _, _, _ => none
    else none
  | _ => none

/-- Parse a `HH:MM:SS` time-of-day string to seconds within the day. -/
def parseTimeOfDay (s : String) : Option Nat :=
  match s.toList with
  | [a, b, c1, c, d, c2, e, f] =>
    if c1 == ':' && c2 == ':' then
      match parse2 a b, parse2 c d, parse2 e f with
      | some hh, some mm, some ss =>
        if hh ≤ 23 && mm ≤ 59 && ss ≤ 59 then
          some (3600 * hh + 60 * mm + ss)
        else none
      | _, _, _ => none
    else none
  | _ => none

/-- `parseTimeLocally` from `calendar-event.go`: the instant (epoch
seconds) of time-of-day `tim` on day `day` in the modelled local zone. -/
def parseTimeLocally (day tim : String) : Option Int :=
  match parseDate day, parseTimeOfDay tim with
  | some d, some s => some (d * 86400 + Int.ofNat s)
  | _, _ => none

/-! ## Cancellation inference (`checkEventsForDay`, second half) -/

/-- `isSessionInList` from `ice-events.go`: linear membership scan of the
session ids observed in this pass. -/
def isSessionInList : List String → String → Bool
  | [], _ => false
  | id :: rest, sessId => if id == sessId then true else isSessionInList rest sessId

/-- The cancellation loop of `checkEventsForDay` (`ice-events.go`): walk
the session sub-buckets in key order; a missing sub-bucket is skipped; an
empty snapshot sequence (`getMostRecentDetails` error) terminates the loop
(`break` in the source); an unparseable start time skips the session; a
start time strictly before `now` terminates the loop; otherwise a session
absent from `seen` has a cancellation snapshot (the last snapshot's
`EventInfo`, observed `now`, `Cancelled = true`) run through
`updateEvent`. -/
def cancelScan (day : String) (seen : List String) (now : Int) :
    EventsStore → List String → EventsStore
  | store, [] => store
  | store, sid :: rest =>
    match lookupSession store sid with
    | none => cancelScan day seen now store rest
    | some seq =>
      match getMostRecentDetails seq with
      | none => store
      | some lastEv =>
        match parseTimeLocally day lastEv.info.StartTime with
        | none => cancelScan day seen now store rest
        | some t =>
          if t < now then store
          else if isSessionInList seen sid then cancelScan day seen now store rest
          else cancelScan day seen now
            (updateEvent store ⟨lastEv.info, now, true⟩).store rest

/-- The cancellation pass over a day: the loop above over the session keys
present when the cursor starts. -/
def inferCancellations (store : EventsStore) (day : String) (seen : List String)
    (now : Int) : EventsStore :=
  cancelScan day seen now store (storeKeys store)

theorem mem_of_lookup {store : EventsStore} {sid : String} {v : SessionSeq}
    (h : lookupSession store sid = some v) : (sid, v) ∈ store := by
  induction store with
  | nil => simp [lookupSession] at h
  | cons p rest ih =>
    obtain ⟨k, w⟩ := p
    by_cases hk : sid = k
    · simp only [lookupSession, if_pos hk] at h
      cases h
      subst hk
      exact List.mem_cons_self _ _
    · simp only [lookupSession, if_neg hk] at h
      exact List.mem_cons_of_mem _ (ih h)

theorem storeKeys_append_of_mem {store : EventsStore} {sid : String}
    (ev : TimestampedEventInfo) (h : sid ∈ storeKeys store) :
    storeKeys (appendSnapshot store sid ev) = storeKeys store := by
  induction store with
  | nil => simp [storeKeys] at h
  | cons p rest ih =>
    obtain ⟨k, w⟩ := p
    by_cases hk : sid = k
    · simp [appendSnapshot, storeKeys, hk]
    · have hmem : sid ∈ storeKeys rest := by
        simp [storeKeys] at h
        exact h.resolve_left hk
      simp [appendSnapshot, storeKeys, hk, ih hmem]

theorem wellKeyed_ensure {store : EventsStore} {sid : String}
    (hw : WellKeyed store) : WellKeyed (ensureSession store sid) := by
  induction store with
  | nil =>
    intro p hp ev hev
    simp [ensureSession] at hp
    subst hp
    simp at hev
  | cons q rest ih =>
    obtain ⟨k, w⟩ := q
    have hw' : WellKeyed rest := fun p hp ev hev => hw p (List.mem_cons_of_mem _ hp) ev hev
    by_cases hk : sid = k
    · simpa [ensureSession, hk] using hw
    · by_cases hlt : sid < k
      · intro p hp ev hev
        simp [ensureSession, hk, hlt] at hp
        rcases hp with hp | hp | hp
        · subst hp; simp at hev
        · subst hp; exact hw (k, w) (List.mem_cons_self _ _) ev hev
        · exact hw p (List.mem_cons_of_mem _ hp) ev hev
      · intro p hp ev hev
        simp only [ensureSession, if_neg hk, if_neg hlt, List.mem_cons] at hp
        rcases hp with hp | hp
        · subst hp; exact hw (k, w) (List.mem_cons_self _ _) ev hev
        · exact ih hw' p hp ev hev

theorem wellKeyed_append {store : EventsStore} {sid : String}
    {ev : TimestampedEventInfo} (hw : WellKeyed store)
    (hid : ev.info.SessionId = sid) : WellKeyed (appendSnapshot store sid ev) := by
  induction store with
  | nil =>
    intro p hp e he
    simp [appendSnapshot] at hp
    subst hp
    simp at he
    subst he
    exact hid
  | cons q rest ih =>
    obtain ⟨k, w⟩ := q
    have hw' : WellKeyed rest := fun p hp e he => hw p (List.mem_cons_of_mem _ hp) e he
    by_cases hk : sid = k
    · intro p hp e he
      simp only [appendSnapshot, if_pos hk, List.mem_cons] at hp
      rcases hp with hp | hp
      · subst hp
        simp at he
        rcases he with he | he
        · exact hw (k, w) (List.mem_cons_self _ _) e he
        · subst he; rw [hid, hk]
      · exact hw p (List.mem_cons_of_mem _ hp) e he
    · intro p hp e he
      simp only [appendSnapshot, if_neg hk, List.mem_cons] at hp
      rcases hp with hp | hp
      · subst hp; exact hw (k, w) (List.mem_cons_self _ _) e he
      · exact ih hw' p hp e he

/-- The two possible shapes of the store returned by `updateEvent`. -/
theorem updateEvent_store_cases (store : EventsStore) (ev : TimestampedEventInfo) :
    (updateEvent store ev).store = ensureSession store ev.info.SessionId
    ∨ (updateEvent store ev).store
        = appendSnapshot (ensureSession store ev.info.SessionId) ev.info.SessionId ev := by
  unfold updateEvent
  cases hlast : getMostRecentDetails
      ((lookupSession (ensureSession store ev.info.SessionId) ev.info.SessionId).getD []) with
  | none => right; simp [hlast]
  | some lastEv =>
    by_cases hsf : sameFields ev lastEv
    · left; simp [hlast, hsf]
    · right; simp [hlast, hsf]

theorem updateEvent_keys {store : EventsStore} {ev : TimestampedEventInfo}
    (hs : SortedKeys store) (hmem : ev.info.SessionId ∈ storeKeys store) :
    storeKeys (updateEvent store ev).store = storeKeys store := by
  obtain ⟨v, hv⟩ : ∃ v, lookupSession store ev.info.SessionId = some v := by
    cases hl : lookupSession store ev.info.SessionId with
    | none => exact (lookupSession_eq_none_iff.mp hl hmem).elim
    | some v => exact ⟨v, rfl⟩
  have hens : ensureSession store ev.info.SessionId = store := ensureSession_of_mem hs hv
  rcases updateEvent_store_cases store ev with h | h <;> rw [h, hens]
  exact storeKeys_append_of_mem ev hmem

theorem updateEvent_sorted {store : EventsStore} {ev : TimestampedEventInfo}
    (hs : SortedKeys store) (hmem : ev.info.SessionId ∈ storeKeys store) :
    SortedKeys (updateEvent store ev).store := by
  unfold SortedKeys
  rw [updateEvent_keys hs hmem]
  exact hs

theorem updateEvent_wellKeyed {store : EventsStore} {ev : TimestampedEventInfo}
    (hw : WellKeyed store) : WellKeyed (updateEvent store ev).store := by
  rcases updateEvent_store_cases store ev with h | h <;> rw [h]
  · exact wellKeyed_ensure hw
  · exact wellKeyed_append (wellKeyed_ensure hw) rfl

theorem updateEvent_frame {store : EventsStore} {ev : TimestampedEventInfo} {q : String}
    (hq : q ≠ ev.info.SessionId) :
    lookupSession (updateEvent store ev).store q = lookupSession store q := by
  rcases updateEvent_store_cases store ev with h | h <;> rw [h]
  · exact lookupSession_ensure_other hq
  · rw [lookupSession_append_other ev hq]
    exact lookupSession_ensure_other hq

theorem mem_of_getLast_eq_some {l : SessionSeq} {x : TimestampedEventInfo}
    (h : getMostRecentDetails l = some x) : x ∈ l := by
  have hx : x ∈ l.getLast? := by rw [Option.mem_def]; exact h.symm ▸ rfl
  obtain ⟨hne, rfl⟩ := List.mem_getLast?_eq_getLast hx
  exact List.getLast_mem hne

/-- The cancellation loop never adds or removes sessions, preserves the
bolt key order and the well-keyedness of snapshots, and leaves every
session outside its scan list untouched. -/
theorem cancelScan_inv (day : String) (seen : List String) (now : Int) :
    ∀ (sids : List String) (store : EventsStore),
      SortedKeys store → WellKeyed store →
      storeKeys (cancelScan day seen now store sids) = storeKeys store
      ∧ SortedKeys (cancelScan day seen now store sids)
      ∧ WellKeyed (cancelScan day seen now store sids)
      ∧ (∀ q, q ∉ sids →
          lookupSession (cancelScan day seen now store sids) q = lookupSession store q) := by
  intro sids
  induction sids with
  | nil =>
    intro store hs hw
    exact ⟨rfl, hs, hw, fun _ _ => rfl⟩
  | cons sid rest ih =>
    intro store hs hw
    cases hlook : lookupSession store sid with
    | none =>
      have hstep : cancelScan day seen now store (sid :: rest)
          = cancelScan day seen now store rest := by
        simp [cancelScan, hlook]
      obtain ⟨hk, hsr, hwr, hfr⟩ := ih store hs hw
      rw [hstep]
      exact ⟨hk, hsr, hwr, fun q hq => hfr q (fun hmem => hq (List.mem_cons_of_mem _ hmem))⟩
    | some seq =>
      cases hlast : getMostRecentDetails seq with
      | none =>
        have hstep : cancelScan day seen now store (sid :: rest) = store := by
          simp [cancelScan, hlook, hlast]
        rw [hstep]
        exact ⟨rfl, hs, hw, fun _ _ => rfl⟩
      | some lastEv =>
        cases hparse : parseTimeLocally day lastEv.info.StartTime with
        | none =>
          have hstep : cancelScan day seen now store (sid :: rest)
              = cancelScan day seen now store rest := by
            simp [cancelScan, hlook, hlast, hparse]
          obtain ⟨hk, hsr, hwr, hfr⟩ := ih store hs hw
          rw [hstep]
          exact ⟨hk, hsr, hwr, fun q hq => hfr q (fun hmem => hq (List.mem_cons_of_mem _ hmem))⟩
        | some t =>
          by_cases hlt : t < now
          · have hstep : cancelScan day seen now store (sid :: rest) = store := by
              simp [cancelScan, hlook, hlast, hparse, hlt]
            rw [hstep]
            exact ⟨rfl, hs, hw, fun _ _ => rfl⟩
          · by_cases hseen : isSessionInList seen sid
            · have hstep : cancelScan day seen now store (sid :: rest)
                  = cancelScan day seen now store rest := by
                simp [cancelScan, hlook, hlast, hparse, hlt, hseen]
              obtain ⟨hk, hsr, hwr, hfr⟩ := ih store hs hw
              rw [hstep]
              exact ⟨hk, hsr, hwr, fun q hq => hfr q (fun hmem => hq (List.mem_cons_of_mem _ hmem))⟩
            · have hcand : (⟨lastEv.info, now, true⟩ : TimestampedEventInfo).info.SessionId
                  = sid :=
                hw (sid, seq) (mem_of_lookup hlook) lastEv (mem_of_getLast_eq_some hlast)
              have hmemk : sid ∈ storeKeys store := mem_storeKeys_of_lookup hlook
              have hmemc : (⟨lastEv.info, now, true⟩ :
                  TimestampedEventInfo).info.SessionId ∈ storeKeys store := by
                rw [hcand]; exact hmemk
              have hstep : cancelScan day seen now store (sid :: rest)
                  = cancelScan day seen now
                      (updateEvent store ⟨lastEv.info, now, true⟩).store rest := by
                simp [cancelScan, hlook, hlast, hparse, hlt, hseen]
              obtain ⟨hk, hsr, hwr, hfr⟩ :=
                ih (updateEvent store ⟨lastEv.info, now, true⟩).store
                  (updateEvent_sorted hs hmemc) (updateEvent_wellKeyed hw)
              rw [hstep]
              refine ⟨hk.trans (updateEvent_keys hs hmemc), hsr, hwr, fun q hq => ?_⟩
              have hq1 : q ∉ rest := fun hmem => hq (List.mem_cons_of_mem _ hmem)
              have hq2 : q ≠ sid := fun hqe => hq (hqe ▸ List.mem_cons_self _ _)
              rw [hfr q hq1, updateEvent_frame (hcand.symm ▸ hq2)]

/-- A session whose latest snapshot has a start time strictly before `now`
is never written by the cancellation loop, whatever scan list is used. -/
theorem cancelScan_preserves_past (day : String) (seen : List String) (now : Int)
    (q : String) (seq : SessionSeq) (lastEv : TimestampedEventInfo) (t : Int)
    (hlastq : getMostRecentDetails seq = some lastEv)
    (htq : parseTimeLocally day lastEv.info.StartTime = some t)
    (htlt : t < now) :
    ∀ (sids : List String) (store : EventsStore),
      SortedKeys store → WellKeyed store →
      lookupSession store q = some seq →
      lookupSession (cancelScan day seen now store sids) q = some seq := by
  intro sids
  induction sids with
  | nil => intro store _ _ hq; exact hq
  | cons sid rest ih =>
    intro store hs hw hq
    cases hlook : lookupSession store sid with
    | none =>
      rw [show cancelScan day seen now store (sid :: rest)
          = cancelScan day seen now store rest by simp [cancelScan, hlook]]
      exact ih store hs hw hq
    | some seq' =>
      cases hlast : getMostRecentDetails seq' with
      | none =>
        rw [show cancelScan day seen now store (sid :: rest) = store by
          simp [cancelScan, hlook, hlast]]
        exact hq
      | some lastEv' =>
        cases hparse : parseTimeLocally day lastEv'.info.StartTime with
        | none =>
          rw [show cancelScan day seen now store (sid :: rest)
              = cancelScan day seen now store rest by simp [cancelScan, hlook, hlast, hparse]]
          exact ih store hs hw hq
        | some t' =>
          by_cases hlt : t' < now
          · rw [show cancelScan day seen now store (sid :: rest) = store by
              simp [cancelScan, hlook, hlast, hparse, hlt]]
            exact hq
          · by_cases hseen : isSessionInList seen sid
            · rw [show cancelScan day seen now store (sid :: rest)
                  = cancelScan day seen now store rest by
                simp [cancelScan, hlook, hlast, hparse, hlt, hseen]]
              exact ih store hs hw hq
            · have hqne : q ≠ sid := by
                rintro rfl
                rw [hq] at hlook
                cases hlook
                rw [hlastq] at hlast
                cases hlast
                rw [htq] at hparse
                cases hparse
                exact hlt htlt
              have hcand : (⟨lastEv'.info, now, true⟩ : TimestampedEventInfo).info.SessionId
                  = sid :=
                hw (sid, seq') (mem_of_lookup hlook) lastEv' (mem_of_getLast_eq_some hlast)
              have hmemc : (⟨lastEv'.info, now, true⟩ :
                  TimestampedEventInfo).info.SessionId ∈ storeKeys store := by
                rw [hcand]; exact mem_storeKeys_of_lookup hlook
              rw [show cancelScan day seen now store (sid :: rest)
                  = cancelScan day seen now
                      (updateEvent store ⟨lastEv'.info, now, true⟩).store rest by
                simp [cancelScan, hlook, hlast, hparse, hlt, hseen]]
              refine ih (updateEvent store ⟨lastEv'.info, now, true⟩).store
                (updateEvent_sorted hs hmemc) (updateEvent_wellKeyed hw) ?_
              rw [updateEvent_frame (hcand.symm ▸ hqne)]
              exact hq

/-- **C3, amended.**  For every session whose latest stored snapshot has a
start time *strictly* before `now`, cancellation inference never marks
that session cancelled (its stored sequence is unchanged by the pass), and
the scan over a day's sessions stops at the first such past-start session,
writing nothing.  (At the exact-equality boundary `start == now` the code
uses the strict `t.Before(localNow)` test, so such a session is *not*
treated as past — see the counterexample.) -/
theorem inferCancellations_skips_past (store : EventsStore) (day : String)
    (seen : List String) (now : Int) (q : String) (seq : SessionSeq)
    (lastEv : TimestampedEventInfo) (t : Int)
    (hs : SortedKeys store) (hw : WellKeyed store)
    (hq : lookupSession store q = some seq)
    (hlast : getMostRecentDetails seq = some lastEv)
    (ht : parseTimeLocally day lastEv.info.StartTime = some t)
    (htlt : t < now) :
    lookupSession (inferCancellations store day seen now) q = some seq
    ∧ ∀ rest, cancelScan day seen now store (q :: rest) = store := by
  constructor
  · exact cancelScan_preserves_past day seen now q seq lastEv t hlast ht htlt
      (storeKeys store) store hs hw hq
  · intro rest
    simp [cancelScan, hq, hlast, ht, htlt]

/-- Concrete witness for the amended C3: day 2030-01-02, one session whose
single snapshot starts at 10:00:00, `now` one second after that start; the
pass leaves the sequence untouched and the scan halts at this session. -/
theorem inferCancellations_skips_past_witness :
    let ev : TimestampedEventInfo :=
      ⟨⟨"s1", "Skate", "Rink", "10:00:00", "11:00:00", 50, 5, 10, 2⟩, 100, false⟩
    let t := (parseTimeLocally "2030-01-02" "10:00:00").getD 0
    lookupSession (inferCancellations [("s1", [ev])] "2030-01-02" [] (t + 1)) "s1"
      = some [ev] := by
  intro ev t
  exact (inferCancellations_skips_past [("s1", [ev])] "2030-01-02" [] (t + 1)
    "s1" [ev] ev t
    (by simp [SortedKeys, storeKeys])
    (by intro p hp e he; simp at hp; subst hp; simp at he; subst he; rfl)
    (by simp [lookupSession])
    (by simp [getMostRecentDetails])
    (by decide)
    (by decide)).1

/-- **C3, counterexample.**  At the exact-equality boundary the claim
fails: with `now` equal to the parsed start time of the session's latest
snapshot, the session is still eligible for cancellation — the pass
appends a `Cancelled = true` snapshot instead of stopping. -/
theorem inferCancellations_boundary_cancels :
    let ev : TimestampedEventInfo :=
      ⟨⟨"s1", "Skate", "Rink", "10:00:00", "11:00:00", 50, 5, 10, 2⟩, 100, false⟩
    let t := (parseTimeLocally "2030-01-02" "10:00:00").getD 0
    lookupSession (inferCancellations [("s1", [ev])] "2030-01-02" [] t) "s1"
      = some [ev, ⟨ev.info, t, true⟩] := by
  decide

/-- **C4.**  Contrary to the spec (and to the code's own comment "No
recent details, so nothing to cancel"), a session with no stored snapshot
does not merely get skipped: the `break` terminates the cancellation scan
for the whole day.  Here session `"a"` has an empty snapshot sequence and
session `"b"` is future and unobserved; the claim requires `"b"` to be
cancelled, but the pass leaves the store completely unchanged.  Dropping
the empty session shows `"b"` would otherwise have been cancelled. -/
theorem cancelScan_break_on_missing_snapshot :
    let evB : TimestampedEventInfo :=
      ⟨⟨"b", "Skate", "Rink", "12:00:00", "13:00:00", 50, 5, 10, 2⟩, 100, false⟩
    let now := (parseTimeLocally "2030-01-02" "10:00:00").getD 0
    inferCancellations [("a", []), ("b", [evB])] "2030-01-02" [] now
      = [("a", []), ("b", [evB])]
    ∧ inferCancellations [("b", [evB])] "2030-01-02" [] now
      = [("b", [evB, ⟨evB.info, now, true⟩])] := by
  decide

/-- The nine-field comparison is reflexive: a record never differs from
itself. -/
theorem sameFields_refl (ev : TimestampedEventInfo) : sameFields ev ev = true := by
  simp [sameFields]

theorem getMostRecentDetails_append_single (l : SessionSeq) (a : TimestampedEventInfo) :
    getMostRecentDetails (l ++ [a]) = some a := by
  simp [getMostRecentDetails]

/-- Running the cancellation loop a second time over the same scan list,
with the same observed set and the same `now`, changes nothing: every
session it cancelled now compares equal to its own cancellation candidate
and yields `Unchanged`, and every skip or halt happens at the same spot. -/
theorem cancelScan_twice (day : String) (seen : List String) (now : Int) :
    ∀ (sids : List String) (store : EventsStore),
      SortedKeys store → WellKeyed store → sids.Nodup →
      cancelScan day seen now (cancelScan day seen now store sids) sids
        = cancelScan day seen now store sids := by
  intro sids
  induction sids with
  | nil => intro store _ _ _; rfl
  | cons sid rest ih =>
    intro store hs hw hnd
    have hsidrest : sid ∉ rest := (List.nodup_cons.mp hnd).1
    have hndrest : rest.Nodup := (List.nodup_cons.mp hnd).2
    cases hlook : lookupSession store sid with
    | none =>
      have hstep : cancelScan day seen now store (sid :: rest)
          = cancelScan day seen now store rest := by simp [cancelScan, hlook]
      have hlookF : lookupSession (cancelScan day seen now store rest) sid = none := by
        rw [(cancelScan_inv day seen now rest store hs hw).2.2.2 sid hsidrest]
        exact hlook
      rw [hstep, show cancelScan day seen now (cancelScan day seen now store rest)
            (sid :: rest) = cancelScan day seen now (cancelScan day seen now store rest) rest
          by simp [cancelScan, hlookF]]
      exact ih store hs hw hndrest
    | some seq =>
      cases hlast : getMostRecentDetails seq with
      | none =>
        have hstep : cancelScan day seen now store (sid :: rest) = store := by
          simp [cancelScan, hlook, hlast]
        rw [hstep, hstep]
      | some lastEv =>
        cases hparse : parseTimeLocally day lastEv.info.StartTime with
        | none =>
          have hstep : cancelScan day seen now store (sid :: rest)
              = cancelScan day seen now store rest := by
            simp [cancelScan, hlook, hlast, hparse]
          have hlookF : lookupSession (cancelScan day seen now store rest) sid = some seq := by
            rw [(cancelScan_inv day seen now rest store hs hw).2.2.2 sid hsidrest]
            exact hlook
          rw [hstep, show cancelScan day seen now (cancelScan day seen now store rest)
                (sid :: rest) = cancelScan day seen now (cancelScan day seen now store rest) rest
              by simp [cancelScan, hlookF, hlast, hparse]]
          exact ih store hs hw hndrest
        | some t =>
          by_cases hlt : t < now
          · have hstep : cancelScan day seen now store (sid :: rest) = store := by
              simp [cancelScan, hlook, hlast, hparse, hlt]
            rw [hstep, hstep]
          · by_cases hseen : isSessionInList seen sid
            · have hstep : cancelScan day seen now store (sid :: rest)
                  = cancelScan day seen now store rest := by
                simp [cancelScan, hlook, hlast, hparse, hlt, hseen]
              have hlookF : lookupSession (cancelScan day seen now store rest) sid
                  = some seq := by
                rw [(cancelScan_inv day seen now rest store hs hw).2.2.2 sid hsidrest]
                exact hlook
              rw [hstep, show cancelScan day seen now (cancelScan day seen now store rest)
                    (sid :: rest)
                    = cancelScan day seen now (cancelScan day seen now store rest) rest
                  by simp [cancelScan, hlookF, hlast, hparse, hlt, hseen]]
              exact ih store hs hw hndrest
            · have hcand : (⟨lastEv.info, now, true⟩ : TimestampedEventInfo).info.SessionId
                  = sid :=
                hw (sid, seq) (mem_of_lookup hlook) lastEv (mem_of_getLast_eq_some hlast)
              have hstep : cancelScan day seen now store (sid :: rest)
                  = cancelScan day seen now
                      (updateEvent store ⟨lastEv.info, now, true⟩).store rest := by
                simp [cancelScan, hlook, hlast, hparse, hlt, hseen]
              by_cases hsf : sameFields ⟨lastEv.info, now, true⟩ lastEv
              · -- already cancelled: the update is `Unchanged`
                have hupd : updateEvent store ⟨lastEv.info, now, true⟩
                    = ⟨store, []⟩ := by
                  refine updateEvent_eq_of_same hs ?_ hsf
                  rw [hcand, hlook]
                  exact hlast
                have hlookF : lookupSession (cancelScan day seen now store rest) sid
                    = some seq := by
                  rw [(cancelScan_inv day seen now rest store hs hw).2.2.2 sid hsidrest]
                  exact hlook
                have hupdF : updateEvent (cancelScan day seen now store rest)
                    ⟨lastEv.info, now, true⟩ = ⟨cancelScan day seen now store rest, []⟩ := by
                  refine updateEvent_eq_of_same
                    (cancelScan_inv day seen now rest store hs hw).2.1 ?_ hsf
                  rw [hcand, hlookF]
                  exact hlast
                rw [hstep, hupd]
                rw [show cancelScan day seen now (cancelScan day seen now store rest)
                      (sid :: rest)
                      = cancelScan day seen now
                          (updateEvent (cancelScan day seen now store rest)
                            ⟨lastEv.info, now, true⟩).store rest
                    by simp [cancelScan, hlookF, hlast, hparse, hlt, hseen]]
                rw [hupdF]
                exact ih store hs hw hndrest
              · -- genuinely new cancellation: appended, second run sees it
                have hmemc : (⟨lastEv.info, now, true⟩ :
                    TimestampedEventInfo).info.SessionId ∈ storeKeys store := by
                  rw [hcand]; exact mem_storeKeys_of_lookup hlook
                have hs' : SortedKeys (updateEvent store ⟨lastEv.info, now, true⟩).store :=
                  updateEvent_sorted hs hmemc
                have hw' : WellKeyed (updateEvent store ⟨lastEv.info, now, true⟩).store :=
                  updateEvent_wellKeyed hw
                have hlookS : lookupSession
                    (updateEvent store ⟨lastEv.info, now, true⟩).store sid
                    = some (seq ++ [⟨lastEv.info, now, true⟩]) := by
                  have hdiff : ∀ le, getMostRecentDetails
                      ((lookupSession store (⟨lastEv.info, now, true⟩ :
                        TimestampedEventInfo).info.SessionId).getD []) = some le →
                      sameFields ⟨lastEv.info, now, true⟩ le = false := by
                    intro le hle
                    rw [hcand, hlook] at hle
                    simp only [Option.getD_some] at hle
                    rw [hlast] at hle
                    cases hle
                    exact eq_false_of_ne_true hsf
                  rw [updateEvent_eq_of_diff hs hdiff]
                  have h1 : lookupSession (ensureSession store (⟨lastEv.info, now, true⟩ :
                      TimestampedEventInfo).info.SessionId) (⟨lastEv.info, now, true⟩ :
                      TimestampedEventInfo).info.SessionId = some seq := by
                    rw [lookupSession_ensure_self hs, hcand, hlook]
                    rfl
                  have := lookupSession_append_self
                    (⟨lastEv.info, now, true⟩ : TimestampedEventInfo) h1
                  rw [hcand] at this ⊢
                  exact this
                set store' := (updateEvent store ⟨lastEv.info, now, true⟩).store with hstore'
                have hinv := cancelScan_inv day seen now rest store' hs' hw'
                have hlookF : lookupSession (cancelScan day seen now store' rest) sid
                    = some (seq ++ [⟨lastEv.info, now, true⟩]) := by
                  rw [hinv.2.2.2 sid hsidrest]
                  exact hlookS
                have hlastF : getMostRecentDetails (seq ++ [⟨lastEv.info, now, true⟩])
                    = some ⟨lastEv.info, now, true⟩ :=
                  getMostRecentDetails_append_single _ _
                have hupdF : updateEvent (cancelScan day seen now store' rest)
                    ⟨lastEv.info, now, true⟩
                    = ⟨cancelScan day seen now store' rest, []⟩ := by
                  refine updateEvent_eq_of_same hinv.2.1 ?_ (sameFields_refl _)
                  rw [hcand, hlookF]
                  simp only [Option.getD_some]
                  exact hlastF
                rw [hstep]
                rw [show cancelScan day seen now (cancelScan day seen now store' rest)
                      (sid :: rest)
                      = cancelScan day seen now
                          (updateEvent (cancelScan day seen now store' rest)
                            ⟨lastEv.info, now, true⟩).store rest
                    by simp [cancelScan, hlookF, hlastF, hparse, hlt, hseen]]
                rw [hupdF]
                exact ih store' hs' hw' hndrest

theorem mem_appendSnapshot {store : EventsStore} {sid : String}
    {ev : TimestampedEventInfo} {p : String × SessionSeq}
    (hp : p ∈ appendSnapshot store sid ev) :
    p ∈ store ∨ ∃ v, p = (sid, v ++ [ev]) := by
  induction store with
  | nil =>
    simp [appendSnapshot] at hp
    exact Or.inr ⟨[], by simp [hp]⟩
  | cons q rest ih =>
    obtain ⟨k, w⟩ := q
    by_cases hk : sid = k
    · simp only [appendSnapshot, if_pos hk, List.mem_cons] at hp
      rcases hp with hp | hp
      · exact Or.inr ⟨w, by rw [hp, hk]⟩
      · exact Or.inl (List.mem_cons_of_mem _ hp)
    · simp only [appendSnapshot, if_neg hk, List.mem_cons] at hp
      rcases hp with hp | hp
      · exact Or.inl (hp ▸ List.mem_cons_self _ _)
      · rcases ih hp with h | h
        · exact Or.inl (List.mem_cons_of_mem _ h)
        · exact Or.inr h

/-- When no session of the store would halt the scan (each has a snapshot
with a parseable start time not strictly before `now`), the cancellation
loop reaches every listed session and acts on it exactly as the spec's
`inferCancellations` describes: observed sessions and already-cancelled
candidates are left alone, and every unobserved session whose cancellation
candidate differs from its last snapshot gets that candidate appended. -/
theorem cancelScan_characterize (day : String) (seen : List String) (now : Int) :
    ∀ (sids : List String) (store : EventsStore),
      SortedKeys store → WellKeyed store → sids.Nodup →
      (∀ p ∈ store, ∃ le t, getMostRecentDetails p.2 = some le
        ∧ parseTimeLocally day le.info.StartTime = some t ∧ ¬ t < now) →
      (∀ s ∈ sids, s ∈ storeKeys store) →
      ∀ q ∈ sids, ∀ seq lastEv,
        lookupSession store q = some seq → getMostRecentDetails seq = some lastEv →
        (isSessionInList seen q = true →
          lookupSession (cancelScan day seen now store sids) q = some seq)
        ∧ (isSessionInList seen q = false →
            sameFields ⟨lastEv.info, now, true⟩ lastEv = false →
            lookupSession (cancelScan day seen now store sids) q
              = some (seq ++ [⟨lastEv.info, now, true⟩]))
        ∧ (isSessionInList seen q = false →
            sameFields ⟨lastEv.info, now, true⟩ lastEv = true →
            lookupSession (cancelScan day seen now store sids) q = some seq) := by
  intro sids
  induction sids with
  | nil =>
    intro store _ _ _ _ _ q hq
    exact absurd hq (List.not_mem_nil q)
  | cons sid rest ih =>
    intro store hs hw hnd hall hsub q hq seq lastEv hlookq hlastq
    have hsidrest : sid ∉ rest := (List.nodup_cons.mp hnd).1
    have hndrest : rest.Nodup := (List.nodup_cons.mp hnd).2
    have hsidmem : sid ∈ storeKeys store := hsub sid (List.mem_cons_self _ _)
    obtain ⟨seq₀, hlook₀⟩ : ∃ s, lookupSession store sid = some s := by
      cases hl : lookupSession store sid with
      | none => exact (lookupSession_eq_none_iff.mp hl hsidmem).elim
      | some s => exact ⟨s, rfl⟩
    obtain ⟨le₀, t₀, hlast₀, hparse₀, hlt₀⟩ := hall (sid, seq₀) (mem_of_lookup hlook₀)
    have hcand₀ : (⟨le₀.info, now, true⟩ : TimestampedEventInfo).info.SessionId = sid :=
      hw (sid, seq₀) (mem_of_lookup hlook₀) le₀ (mem_of_getLast_eq_some hlast₀)
    rcases List.mem_cons.mp hq with rfl | hqrest
    · -- the inspected session is the head of the scan list
      have hseq : seq = seq₀ := by
        rw [hlookq] at hlook₀; cases hlook₀; rfl
      subst hseq
      have hle : lastEv = le₀ := by
        rw [hlastq] at hlast₀; cases hlast₀; rfl
      subst hle
      by_cases hseen : isSessionInList seen q
      · have hstep : cancelScan day seen now store (q :: rest)
            = cancelScan day seen now store rest := by
          simp [cancelScan, hlook₀, hlast₀, hparse₀, hlt₀, hseen]
        have hres : lookupSession (cancelScan day seen now store rest) q = some seq := by
          rw [(cancelScan_inv day seen now rest store hs hw).2.2.2 q hsidrest]
          exact hlookq
        rw [hstep]
        exact ⟨fun _ => hres, fun hobs _ => by simp [hseen] at hobs,
          fun _ _ => hres⟩
      · by_cases hsf : sameFields ⟨lastEv.info, now, true⟩ lastEv
        · have hupd : updateEvent store ⟨lastEv.info, now, true⟩ = ⟨store, []⟩ := by
            refine updateEvent_eq_of_same hs ?_ hsf
            rw [hcand₀, hlook₀]
            simp only [Option.getD_some]
            exact hlast₀
          have hstep : cancelScan day seen now store (q :: rest)
              = cancelScan day seen now store rest := by
            simp [cancelScan, hlook₀, hlast₀, hparse₀, hlt₀, hseen, hupd]
          have hres : lookupSession (cancelScan day seen now store rest) q = some seq := by
            rw [(cancelScan_inv day seen now rest store hs hw).2.2.2 q hsidrest]
            exact hlookq
          rw [hstep]
          refine ⟨fun hobs => by simp [hobs] at hseen, fun _ hdf => ?_, fun _ _ => hres⟩
          rw [hsf] at hdf
          cases hdf
        · have hmemc : (⟨lastEv.info, now, true⟩ :
              TimestampedEventInfo).info.SessionId ∈ storeKeys store := by
            rw [hcand₀]; exact hsidmem
          have hdiff : ∀ le, getMostRecentDetails
              ((lookupSession store (⟨lastEv.info, now, true⟩ :
                TimestampedEventInfo).info.SessionId).getD []) = some le →
              sameFields ⟨lastEv.info, now, true⟩ le = false := by
            intro le hle
            rw [hcand₀, hlook₀] at hle
            simp only [Option.getD_some] at hle
            rw [hlast₀] at hle
            cases hle
            exact eq_false_of_ne_true hsf
          have heq : (updateEvent store ⟨lastEv.info, now, true⟩).store
              = appendSnapshot store q ⟨lastEv.info, now, true⟩ := by
            rw [updateEvent_eq_of_diff hs hdiff]
            rw [hcand₀, ensureSession_of_mem hs hlook₀]
          have hs' : SortedKeys (updateEvent store ⟨lastEv.info, now, true⟩).store :=
            updateEvent_sorted hs hmemc
          have hw' : WellKeyed (updateEvent store ⟨lastEv.info, now, true⟩).store :=
            updateEvent_wellKeyed hw
          have hstep : cancelScan day seen now store (q :: rest)
              = cancelScan day seen now
                  (updateEvent store ⟨lastEv.info, now, true⟩).store rest := by
            simp [cancelScan, hlook₀, hlast₀, hparse₀, hlt₀, hseen]
          have hlookS : lookupSession
              (updateEvent store ⟨lastEv.info, now, true⟩).store q
              = some (seq ++ [⟨lastEv.info, now, true⟩]) := by
            rw [heq]
            exact lookupSession_append_self _ hlookq
          have hres : lookupSession
              (cancelScan day seen now
                (updateEvent store ⟨lastEv.info, now, true⟩).store rest) q
              = some (seq ++ [⟨lastEv.info, now, true⟩]) := by
            rw [(cancelScan_inv day seen now rest _ hs' hw').2.2.2 q hsidrest]
            exact hlookS
          rw [hstep]
          refine ⟨fun hobs => by simp [hobs] at hseen, fun _ _ => hres,
            fun _ hdf => ?_⟩
          rw [hdf] at hsf
          exact (hsf rfl).elim
    · -- the inspected session appears later in the scan list
      by_cases hseen : isSessionInList seen sid
      · have hstep : cancelScan day seen now store (sid :: rest)
            = cancelScan day seen now store rest := by
          simp [cancelScan, hlook₀, hlast₀, hparse₀, hlt₀, hseen]
        rw [hstep]
        exact ih store hs hw hndrest hall
          (fun s hsm => hsub s (List.mem_cons_of_mem _ hsm)) q hqrest seq lastEv hlookq hlastq
      · by_cases hsf : sameFields ⟨le₀.info, now, true⟩ le₀
        · have hupd : updateEvent store ⟨le₀.info, now, true⟩ = ⟨store, []⟩ := by
            refine updateEvent_eq_of_same hs ?_ hsf
            rw [hcand₀, hlook₀]
            simp only [Option.getD_some]
            exact hlast₀
          have hstep : cancelScan day seen now store (sid :: rest)
              = cancelScan day seen now store rest := by
            simp [cancelScan, hlook₀, hlast₀, hparse₀, hlt₀, hseen, hupd]
          rw [hstep]
          exact ih store hs hw hndrest hall
            (fun s hsm => hsub s (List.mem_cons_of_mem _ hsm)) q hqrest seq lastEv hlookq hlastq
        · have hqne : q ≠ sid := fun hcon => hsidrest (hcon ▸ hqrest)
          have hmemc : (⟨le₀.info, now, true⟩ :
              TimestampedEventInfo).info.SessionId ∈ storeKeys store := by
            rw [hcand₀]; exact hsidmem
          have hdiff : ∀ le, getMostRecentDetails
              ((lookupSession store (⟨le₀.info, now, true⟩ :
                TimestampedEventInfo).info.SessionId).getD []) = some le →
              sameFields ⟨le₀.info, now, true⟩ le = false := by
            intro le hle
            rw [hcand₀, hlook₀] at hle
            simp only [Option.getD_some] at hle
            rw [hlast₀] at hle
            cases hle
            exact eq_false_of_ne_true hsf
          have heq : (updateEvent store ⟨le₀.info, now, true⟩).store
              = appendSnapshot store sid ⟨le₀.info, now, true⟩ := by
            rw [updateEvent_eq_of_diff hs hdiff]
            rw [hcand₀, ensureSession_of_mem hs hlook₀]
          have hs' : SortedKeys (updateEvent store ⟨le₀.info, now, true⟩).store :=
            updateEvent_sorted hs hmemc
          have hw' : WellKeyed (updateEvent store ⟨le₀.info, now, true⟩).store :=
            updateEvent_wellKeyed hw
          have hall' : ∀ p ∈ (updateEvent store ⟨le₀.info, now, true⟩).store,
              ∃ le t, getMostRecentDetails p.2 = some le
                ∧ parseTimeLocally day le.info.StartTime = some t ∧ ¬ t < now := by
            intro p hp
            rw [heq] at hp
            rcases mem_appendSnapshot hp with hp | ⟨v, rfl⟩
            · exact hall p hp
            · exact ⟨⟨le₀.info, now, true⟩, t₀,
                getMostRecentDetails_append_single _ _, hparse₀, hlt₀⟩
          have hkeys' : storeKeys (updateEvent store ⟨le₀.info, now, true⟩).store
              = storeKeys store := updateEvent_keys hs hmemc
          have hstep : cancelScan day seen now store (sid :: rest)
              = cancelScan day seen now
                  (updateEvent store ⟨le₀.info, now, true⟩).store rest := by
            simp [cancelScan, hlook₀, hlast₀, hparse₀, hlt₀, hseen]
          have hlookq' : lookupSession (updateEvent store ⟨le₀.info, now, true⟩).store q
              = some seq := by
            rw [updateEvent_frame (hcand₀.symm ▸ hqne)]
            exact hlookq
          rw [hstep]
          exact ih (updateEvent store ⟨le₀.info, now, true⟩).store hs' hw' hndrest hall'
            (fun s hsm => hkeys' ▸ hsub s (List.mem_cons_of_mem _ hsm))
            q hqrest seq lastEv hlookq' hlastq

/-- **C5, counterexample.**  The claim quantifies over every day state:
"running the cancellation pass once appends a cancelled=true snapshot for
each future, unobserved session".  With a past-start session `"a"` ahead
of a future unobserved session `"b"` in key order, the scan halts at `"a"`
and appends nothing at all — `"b"` stays uncancelled. -/
theorem inferCancellations_misses_after_halt :
    let evA : TimestampedEventInfo :=
      ⟨⟨"a", "Skate", "Rink", "08:00:00", "09:00:00", 50, 5, 10, 2⟩, 100, false⟩
    let evB : TimestampedEventInfo :=
      ⟨⟨"b", "Skate", "Rink", "12:00:00", "13:00:00", 50, 5, 10, 2⟩, 100, false⟩
    let now := (parseTimeLocally "2030-01-02" "10:00:00").getD 0
    inferCancellations [("a", [evA]), ("b", [evB])] "2030-01-02" [] now
      = [("a", [evA]), ("b", [evB])] := by
  decide

/-- **C5, amended.**  On a well-formed store, provided no session halts
the scan (every session has a snapshot with a parseable start time not
strictly before `now` — the scan stops at the first past-start or
snapshot-less session, see the counterexample), one cancellation pass
appends the `Cancelled = true` candidate exactly to the future unobserved
sessions whose candidate differs from their last snapshot, and leaves
observed or already-cancelled sessions alone; and unconditionally, running
the pass a second time with the same observed set and time appends
nothing (the pass is idempotent). -/
theorem inferCancellations_idempotent (store : EventsStore) (day : String)
    (seen : List String) (now : Int)
    (hs : SortedKeys store) (hw : WellKeyed store) :
    ((∀ p ∈ store, ∃ le t, getMostRecentDetails p.2 = some le
        ∧ parseTimeLocally day le.info.StartTime = some t ∧ ¬ t < now) →
      ∀ q seq lastEv,
        lookupSession store q = some seq → getMostRecentDetails seq = some lastEv →
        (isSessionInList seen q = false →
            sameFields ⟨lastEv.info, now, true⟩ lastEv = false →
            lookupSession (inferCancellations store day seen now) q
              = some (seq ++ [⟨lastEv.info, now, true⟩]))
        ∧ (isSessionInList seen q = true →
            lookupSession (inferCancellations store day seen now) q = some seq)
        ∧ (isSessionInList seen q = false →
            sameFields ⟨lastEv.info, now, true⟩ lastEv = true →
            lookupSession (inferCancellations store day seen now) q = some seq))
    ∧ inferCancellations (inferCancellations store day seen now) day seen now
        = inferCancellations store day seen now := by
  have hnd : (storeKeys store).Nodup := hs.imp ne_of_lt
  constructor
  · intro hall q seq lastEv hlookq hlastq
    have h := cancelScan_characterize day seen now (storeKeys store) store hs hw hnd hall
      (fun s hsm => hsm) q (mem_storeKeys_of_lookup hlookq) seq lastEv hlookq hlastq
    exact ⟨h.2.1, h.1, h.2.2⟩
  · have hkeys : storeKeys (inferCancellations store day seen now) = storeKeys store :=
      (cancelScan_inv day seen now (storeKeys store) store hs hw).1
    unfold inferCancellations
    unfold inferCancellations at hkeys
    rw [hkeys]
    exact cancelScan_twice day seen now (storeKeys store) store hs hw hnd

/-- Concrete witness for the amended C5: one future unobserved session;
the first pass appends its cancellation candidate, the second pass is the
identity. -/
theorem inferCancellations_idempotent_witness :
    let evB : TimestampedEventInfo :=
      ⟨⟨"b", "Skate", "Rink", "12:00:00", "13:00:00", 50, 5, 10, 2⟩, 100, false⟩
    let now := (parseTimeLocally "2030-01-02" "10:00:00").getD 0
    lookupSession (inferCancellations [("b", [evB])] "2030-01-02" [] now) "b"
      = some [evB, ⟨evB.info, now, true⟩]
    ∧ inferCancellations (inferCancellations [("b", [evB])] "2030-01-02" [] now)
        "2030-01-02" [] now
      = inferCancellations [("b", [evB])] "2030-01-02" [] now := by
  intro evB now
  have h := inferCancellations_idempotent [("b", [evB])] "2030-01-02" [] now
    (by simp [SortedKeys, storeKeys])
    (by intro p hp e he; simp at hp; subst hp; simp at he; subst he; rfl)
  refine ⟨?_, h.2⟩
  refine ((h.1 ?_ "b" [evB] evB (by simp [lookupSession])
    (by simp [getMostRecentDetails])).1 (by decide) (by decide))
  intro p hp
  simp at hp
  subst hp
  exact ⟨evB, (parseTimeLocally "2030-01-02" "12:00:00").getD 0,
    by simp [getMostRecentDetails], by decide, by decide⟩

/-! ## Token authenticator (`GAuthenticator`) -/

/-- The token-relevant state of `GAuthenticator`: the cached bearer token
and its validity instant (epoch seconds). -/
structure GAuthenticator where
  currentToken  : String
  tokenValidity : Int
  deriving DecidableEq, Repr

/-- `validToken`: the token is usable unless it is empty or its validity
instant lies strictly before `now` (`ga.tokenValidity.Before(time.Now())`). -/
def validToken (ga : GAuthenticator) (now : Int) : Bool :=
  if ga.currentToken = "" ∨ ga.tokenValidity < now then false else true

/-- Externally visible steps of `GAuthenticator.RoundTrip`, in program
order: the renewal exchange (`getToken`), attaching the `Authorization`
header, and forwarding to the next transport layer. -/
inductive AuthStep where
  | renew
  | attachHeader
  | forward
  deriving DecidableEq, Repr

/-- `RoundTrip`: check `validToken`; if invalid, perform the renewal
exchange first (its outcome is the external parameter `renewal`: the new
token and validity on success, `none` on failure, which fails the request);
then attach the bearer header and forward.  Returns the authenticator
state after the call and the steps taken. -/
def RoundTrip (ga : GAuthenticator) (now : Int) (renewal : Option (String × Int)) :
    Option (GAuthenticator × List AuthStep) :=
  if validToken ga now then
    some (ga, [AuthStep.attachHeader, AuthStep.forward])
  else
    match renewal with
    | none => none
    | some (tok, validity) =>
      some (⟨tok, validity⟩, [AuthStep.renew, AuthStep.attachHeader, AuthStep.forward])

/-- **C6, counterexample.**  The claim treats a token whose expiry equals
`now` as invalid.  The code's check is strict (`Before`), so at
`expiry == now` the token passes as valid and the request is forwarded
with the stale header attached — no renewal exchange happens. -/
theorem validToken_at_exact_expiry :
    validToken ⟨"tok", 100⟩ 100 = true
    ∧ RoundTrip ⟨"tok", 100⟩ 100 none
        = some (⟨"tok", 100⟩, [AuthStep.attachHeader, AuthStep.forward]) := by
  decide

/-- **C6, amended.**  For every outbound authorized request, the stored
token is treated as invalid exactly when it is absent or its expiry lies
*strictly* before the current time; in that case the renewal exchange is
performed before the `Authorization` header is attached and the request
forwarded (a failed exchange fails the request), while a present token
with `expiry == now` or `expiry > now` is used as is. -/
theorem roundTrip_renews_iff_strictly_expired (ga : GAuthenticator) (now : Int)
    (renewal : Option (String × Int)) :
    (validToken ga now = false ↔ ga.currentToken = "" ∨ ga.tokenValidity < now)
    ∧ (validToken ga now = false →
        RoundTrip ga now none = none
        ∧ ∀ tok validity, RoundTrip ga now (some (tok, validity))
            = some (⟨tok, validity⟩,
                [AuthStep.renew, AuthStep.attachHeader, AuthStep.forward]))
    ∧ (validToken ga now = true →
        RoundTrip ga now renewal
          = some (ga, [AuthStep.attachHeader, AuthStep.forward])) := by
  refine ⟨?_, ?_, ?_⟩
  · unfold validToken
    by_cases h : ga.currentToken = "" ∨ ga.tokenValidity < now <;> simp [h]
  · intro hinval
    constructor
    · simp [RoundTrip, hinval]
    · intro tok validity
      simp [RoundTrip, hinval]
  · intro hval
    simp [RoundTrip, hval]

/-- Concrete witness for the amended C6: an empty token triggers renewal
before the forward; a renewed exchange result is installed. -/
theorem roundTrip_renews_iff_strictly_expired_witness :
    validToken ⟨"", 0⟩ 50 = false
    ∧ RoundTrip ⟨"", 0⟩ 50 (some ("fresh", 3650))
        = some (⟨"fresh", 3650⟩,
            [AuthStep.renew, AuthStep.attachHeader, AuthStep.forward]) := by
  have h := roundTrip_renews_iff_strictly_expired ⟨"", 0⟩ 50 (some ("fresh", 3650))
  have hinval : validToken ⟨"", 0⟩ 50 = false := h.1.mpr (Or.inl rfl)
  exact ⟨hinval, (h.2.1 hinval).2 "fresh" 3650⟩

/-! ## Calendar reconciliation protocol (`calendar-event.go`) -/

/-- Outcome of the outbound HTTP PUT performed by `updateCalendarEvent`: a
transport error from `c.Do`, or an HTTP status code together with whether
the response body parses as a calendar event. -/
inductive UpdateOutcome where
  | transportError
  | status (code : Nat) (bodyParses : Bool)
  deriving DecidableEq, Repr

/-- The error result of `updateCalendarEvent`, distinguishing the
`ErrNotFound` sentinel (compared by identity in the caller) from every
other error. -/
inductive CalError where
  | errNotFound
  | other
  deriving DecidableEq, Repr

/-- `updateCalendarEvent`: a transport error is wrapped and returned; a
404 status returns the `ErrNotFound` sentinel (before the body is
parsed); otherwise the body is parsed and a parse failure is returned as
an ordinary error.  `none` is a successful update. -/
def updateCalendarEvent (o : UpdateOutcome) : Option CalError :=
  match o with
  | UpdateOutcome.transportError => some CalError.other
  | UpdateOutcome.status code bodyParses =>
    if code = 404 then some CalError.errNotFound
    else if bodyParses then none
    else some CalError.other

/-- The calendar operations attempted against the external service. -/
inductive CalOp where
  | update
  | insert
  deriving DecidableEq, Repr

/-- `optionallyUpdateCalendar`: a no-op without a configured client or if
the snapshot cannot be converted; otherwise attempt the update, and fall
back to an insert exactly when the update returned the `ErrNotFound`
sentinel; any other failure is logged and abandoned. -/
def optionallyUpdateCalendar (clientConfigured convOk : Bool)
    (updOutcome : UpdateOutcome) : List CalOp :=
  if clientConfigured = false then []
  else if convOk = false then []
  else
    match updateCalendarEvent updOutcome with
    | some CalError.errNotFound => [CalOp.update, CalOp.insert]
    | some CalError.other => [CalOp.update]
    | none => [CalOp.update]

/-- **C7.**  During calendar reconciliation of a snapshot (client
configured, snapshot convertible), the update is always attempted, and the
insert is attempted exactly when the update reported not-found, which
happens exactly on an HTTP 404 status; any other failure — transport
error, parse failure — and any success perform no insert. -/
theorem calendar_insert_iff_notfound (o : UpdateOutcome) :
    CalOp.update ∈ optionallyUpdateCalendar true true o
    ∧ (CalOp.insert ∈ optionallyUpdateCalendar true true o
        ↔ updateCalendarEvent o = some CalError.errNotFound)
    ∧ (updateCalendarEvent o = some CalError.errNotFound
        ↔ ∃ b, o = UpdateOutcome.status 404 b) := by
  cases o with
  | transportError => simp [optionallyUpdateCalendar, updateCalendarEvent]
  | status code bodyParses =>
    by_cases hc : code = 404
    · subst hc
      simp [optionallyUpdateCalendar, updateCalendarEvent]
    · cases bodyParses <;>
        simp [optionallyUpdateCalendar, updateCalendarEvent, hc]

/-! ## Day creation and the products length check (`addDays`) -/

/-- The JSON serialization of a product-id list as `json.Marshal`
produces it for a `[]ProductId` value: a bracketed, comma-separated list
of quoted ids.  (Product ids are plain ASCII tokens — UUIDs — so no JSON
escaping arises and byte length equals character length.) -/
def serializeProducts (prods : List String) : String :=
  "[" ++ String.intercalate "," (prods.map (fun p => "\"" ++ p ++ "\"")) ++ "]"

/-- The per-day products update of `addDays`: read the stored `products`
value (`nil`, of length 0, for a freshly created day bucket), compare the
byte length of the new serialization against the stored value's length,
and overwrite only when the lengths differ. -/
def addDaysProductsStep (stored : Option String) (v : String) : Option String :=
  if (stored.getD "").length ≠ v.length then some v else stored

theorem serializeProducts_length_pos (prods : List String) :
    0 < (serializeProducts prods).length := by
  unfold serializeProducts
  simp [String.length_append]
  right
  decide

/-- **C8.**  The stored `products` value is overwritten if and only if the
byte length of the newly serialized list differs from the length of the
currently stored value (absent treated as length 0); a same-length change
— reordering or content replacement — leaves the stored value unchanged;
and a newly created day, having no stored value, always gets the fresh
serialization written (it is never empty). -/
theorem addDays_products_length_check (stored : Option String) (v : String)
    (prods : List String) :
    ((stored.getD "").length ≠ v.length → addDaysProductsStep stored v = some v)
    ∧ ((stored.getD "").length = v.length → addDaysProductsStep stored v = stored)
    ∧ addDaysProductsStep none (serializeProducts prods)
        = some (serializeProducts prods) := by
  refine ⟨?_, ?_, ?_⟩
  · intro h
    simp [addDaysProductsStep, h]
  · intro h
    simp [addDaysProductsStep, h]
  · have h := serializeProducts_length_pos prods
    simp [addDaysProductsStep]
    omega

/-- Concrete witness for C8: a two-entry list reordered (same length) is
not rewritten; a three-entry list (longer serialization) is; a fresh day
gets its list written. -/
theorem addDays_products_length_check_witness :
    addDaysProductsStep (some (serializeProducts ["p1", "p2"]))
        (serializeProducts ["p2", "p1"])
      = some (serializeProducts ["p1", "p2"])
    ∧ addDaysProductsStep (some (serializeProducts ["p1", "p2"]))
        (serializeProducts ["p1", "p2", "p3"])
      = some (serializeProducts ["p1", "p2", "p3"])
    ∧ addDaysProductsStep none (serializeProducts ["p1", "p2"])
        = some (serializeProducts ["p1", "p2"]) := by
  refine ⟨?_, ?_, ?_⟩
  · exact (addDays_products_length_check (some (serializeProducts ["p1", "p2"]))
      (serializeProducts ["p2", "p1"]) []).2.1 (by decide)
  · exact (addDays_products_length_check (some (serializeProducts ["p1", "p2"]))
      (serializeProducts ["p1", "p2", "p3"]) []).1 (by decide)
  · exact (addDays_products_length_check none (serializeProducts ["p1", "p2"])
      ["p1", "p2"]).2.2

/-! ## The events-refresh entry point (`checkForEvents`)

At the root of the bolt database every key is a day bucket, so the
`b == nil` guard of the loop never fires; the cursor `Seek(todayKey)`
positions on the first key at or after `todayKey` (keys ascending), and
the loop body runs `checkEventsForDay` for each visited day, breaking
after the first one in today-only mode. -/

/-- The day loop of `checkForEvents` after the seek: the keys for which
`checkEventsForDay` is invoked, in order; `onlyToday` breaks after the
first day. -/
def seekLoop (onlyToday : Bool) : List String → List String
  | [] => []
  | day :: rest => day :: (if onlyToday then [] else seekLoop onlyToday rest)

/-- `checkForEvents`: seek the cursor to the first stored day key at or
after `todayKey` and run the loop from there. -/
def checkForEventsDays (dayKeys : List String) (todayKey : String)
    (onlyToday : Bool) : List String :=
  seekLoop onlyToday (dayKeys.dropWhile (fun k => decide (k < todayKey)))

/-- **C10.**  In today-only mode the entry point processes exactly the
first stored day whose date key is lexicographically at or after today's
key, and then stops; in particular, when no bucket exists for today's
date but at least one later day is stored, exactly one (future) day is
refreshed rather than none. -/
theorem checkForEvents_today_only (dayKeys : List String) (todayKey : String)
    (hsort : dayKeys.Pairwise (· < ·)) :
    (∀ k, k ∈ checkForEventsDays dayKeys todayKey true ↔
      (k ∈ dayKeys ∧ todayKey ≤ k ∧ ∀ k' ∈ dayKeys, todayKey ≤ k' → k ≤ k'))
    ∧ ((∃ k ∈ dayKeys, todayKey ≤ k) →
        ∃ k, checkForEventsDays dayKeys todayKey true = [k]) := by
  induction dayKeys with
  | nil =>
    constructor
    · intro k
      simp [checkForEventsDays, seekLoop]
    · rintro ⟨k, hk, -⟩
      exact absurd hk (List.not_mem_nil k)
  | cons d rest ih =>
    have hdrest : ∀ q ∈ rest, d < q := (List.pairwise_cons.mp hsort).1
    have hrest : rest.Pairwise (· < ·) := (List.pairwise_cons.mp hsort).2
    by_cases hd : d < todayKey
    · have hdrop : (d :: rest).dropWhile (fun k => decide (k < todayKey))
          = rest.dropWhile (fun k => decide (k < todayKey)) := by
        simp [List.dropWhile, hd]
      have hsame : checkForEventsDays (d :: rest) todayKey true
          = checkForEventsDays rest todayKey true := by
        unfold checkForEventsDays
        rw [hdrop]
      obtain ⟨ih1, ih2⟩ := ih hrest
      constructor
      · intro k
        rw [hsame, ih1 k]
        have hnd : ¬ todayKey ≤ d := not_le.mpr hd
        constructor
        · rintro ⟨hk, hle, hmin⟩
          refine ⟨List.mem_cons_of_mem _ hk, hle, ?_⟩
          intro k' hk' hle'
          rcases List.mem_cons.mp hk' with rfl | hk'
          · exact absurd hle' hnd
          · exact hmin k' hk' hle'
        · rintro ⟨hk, hle, hmin⟩
          rcases List.mem_cons.mp hk with rfl | hk
          · exact absurd hle hnd
          · exact ⟨hk, hle, fun k' hk' hle' => hmin k' (List.mem_cons_of_mem _ hk') hle'⟩
      · rintro ⟨k, hk, hle⟩
        rw [hsame]
        refine ih2 ⟨k, ?_, hle⟩
        rcases List.mem_cons.mp hk with rfl | hk
        · exact absurd hle (not_le.mpr hd)
        · exact hk
    · have hdrop : (d :: rest).dropWhile (fun k => decide (k < todayKey)) = d :: rest := by
        simp [List.dropWhile, hd]
      have hres : checkForEventsDays (d :: rest) todayKey true = [d] := by
        unfold checkForEventsDays
        rw [hdrop]
        simp [seekLoop]
      have hdle : todayKey ≤ d := not_lt.mp hd
      constructor
      · intro k
        rw [hres]
        constructor
        · intro hk
          have hkd := List.mem_singleton.mp hk
          subst hkd
          refine ⟨List.mem_cons_self _ _, hdle, ?_⟩
          intro k' hk' _
          rcases List.mem_cons.mp hk' with rfl | hk'
          · exact le_refl _
          · exact le_of_lt (hdrest k' hk')
        · rintro ⟨hk, hle, hmin⟩
          have hkd : k ≤ d := hmin d (List.mem_cons_self _ _) hdle
          rcases List.mem_cons.mp hk with rfl | hk
          · exact List.mem_singleton.mpr rfl
          · exact absurd hkd (not_le.mpr (hdrest k hk))
      · intro _
        exact ⟨d, hres⟩

/-- Concrete witness for C10: no bucket for today (2030-01-06) but two
later days stored; exactly the first future day is processed. -/
theorem checkForEvents_today_only_witness :
    checkForEventsDays ["2030-01-05", "2030-01-07", "2030-01-09"] "2030-01-06" true
      = ["2030-01-07"]
    ∧ ("2030-01-07" ∈ checkForEventsDays ["2030-01-05", "2030-01-07", "2030-01-09"]
        "2030-01-06" true
      ↔ ("2030-01-07" ∈ ["2030-01-05", "2030-01-07", "2030-01-09"]
          ∧ "2030-01-06" ≤ "2030-01-07"
          ∧ ∀ k' ∈ ["2030-01-05", "2030-01-07", "2030-01-09"],
              "2030-01-06" ≤ k' → "2030-01-07" ≤ k')) := by
  have h56 : ("2030-01-05" : String) < "2030-01-06" := by
    rw [String.lt_iff_toList_lt]; decide
  have h76 : ¬ ("2030-01-07" : String) < "2030-01-06" := by
    rw [String.lt_iff_toList_lt]; decide
  have h57 : ("2030-01-05" : String) < "2030-01-07" := by
    rw [String.lt_iff_toList_lt]; decide
  have h59 : ("2030-01-05" : String) < "2030-01-09" := by
    rw [String.lt_iff_toList_lt]; decide
  have h79 : ("2030-01-07" : String) < "2030-01-09" := by
    rw [String.lt_iff_toList_lt]; decide
  have hsort : List.Pairwise (· < ·) ["2030-01-05", "2030-01-07", "2030-01-09"] := by
    refine List.Pairwise.cons ?_ (List.Pairwise.cons ?_
      (List.Pairwise.cons (fun b hb => absurd hb (List.not_mem_nil b)) List.Pairwise.nil))
    · intro b hb
      rcases List.mem_cons.mp hb with rfl | hb
      · exact h57
      · rcases List.mem_cons.mp hb with rfl | hb
        · exact h59
        · exact absurd hb (List.not_mem_nil b)
    · intro b hb
      rcases List.mem_cons.mp hb with rfl | hb
      · exact h79
      · exact absurd hb (List.not_mem_nil b)
  constructor
  · simp [checkForEventsDays, List.dropWhile, seekLoop, h56, h76]
  · exact (checkForEvents_today_only ["2030-01-05", "2030-01-07", "2030-01-09"]
      "2030-01-06" hsort).1 "2030-01-07"

/-! ## The deterministic external calendar identifier (`makeGCalEvent`)

`calendar-event.go` derives the external calendar id of a session as
`strings.ToLower(idEncoder.EncodeToString([]byte(ev.SessionId)))` where
`idEncoder = base32.HexEncoding.WithPadding(base32.NoPadding)`.  The
embedding models the session identifier as its byte string (`List Nat`,
each element `< 256`) and the RFC 4648 base32hex encoding bit by bit:
the byte string is flattened to bits most-significant first, split into
5-bit groups (the last group zero-padded), and each group indexed into the
base32hex alphabet; `strings.ToLower` is `Char.toLower` on the ASCII
output.  Being a pure function of the session identifier alone, the
mapping is deterministic across calls and runs by construction. -/

/-- The eight bits of a byte, most significant first. -/
def byteBits (b : Nat) : List Bool :=
  [b.testBit 7, b.testBit 6, b.testBit 5, b.testBit 4,
   b.testBit 3, b.testBit 2, b.testBit 1, b.testBit 0]

/-- The bit string of a byte string, most significant bit first. -/
def bytesToBits : List Nat → List Bool
  | [] => []
  | b :: rest => byteBits b ++ bytesToBits rest

/-- A bit group read as a number, most significant bit first. -/
def bitsToNat (l : List Bool) : Nat :=
  l.foldl (fun acc b => 2 * acc + (if b then 1 else 0)) 0

/-- Split a bit string into 5-bit groups, zero-padding the last group —
the grouping performed by the base32 encoder. -/
def chunks5 : List Bool → List (List Bool)
  | [] => []
  | [a] => [[a, false, false, false, false]]
  | [a, b] => [[a, b, false, false, false]]
  | [a, b, c] => [[a, b, c, false, false]]
  | [a, b, c, d] => [[a, b, c, d, false]]
  | a :: b :: c :: d :: e :: rest => [a, b, c, d, e] :: chunks5 rest

/-- The base32hex alphabet (`base32.HexEncoding`). -/
def hexAlphabet : List Char :=
  ['0', '1', '2', '3', '4', '5', '6', '7', '8', '9', 'A', 'B', 'C', 'D', 'E', 'F',
   'G', 'H', 'I', 'J', 'K', 'L', 'M', 'N', 'O', 'P', 'Q', 'R', 'S', 'T', 'U', 'V']

/-- Alphabet lookup for one 5-bit group value. -/
def b32Char (n : Nat) : Char := hexAlphabet.getD n 'A'

/-- `idEncoder.EncodeToString`: the unpadded base32hex encoding of a byte
string. -/
def idEncoderEncodeToString (bs : List Nat) : List Char :=
  (chunks5 (bytesToBits bs)).map (fun c => b32Char (bitsToNat c))

/-- The `Id` field assigned by `makeGCalEvent`:
`strings.ToLower(idEncoder.EncodeToString([]byte(ev.SessionId)))`. -/
def makeGCalEventId (sessionId : List Nat) : List Char :=
  (idEncoderEncodeToString sessionId).map Char.toLower

theorem byteBits_length (b : Nat) : (byteBits b).length = 8 := rfl

theorem bytesToBits_length (bs : List Nat) :
    (bytesToBits bs).length = 8 * bs.length := by
  induction bs with
  | nil => rfl
  | cons b rest ih =>
    simp only [bytesToBits, List.length_append, byteBits_length, ih, List.length_cons]
    omega

set_option maxRecDepth 4096 in
theorem bitsToNat_byteBits_fin : ∀ b : Fin 256, bitsToNat (byteBits b.val) = b.val := by
  decide

theorem bitsToNat_byteBits {b : Nat} (h : b < 256) : bitsToNat (byteBits b) = b :=
  bitsToNat_byteBits_fin ⟨b, h⟩

theorem bytesToBits_inj : ∀ (bs1 bs2 : List Nat),
    (∀ b ∈ bs1, b < 256) → (∀ b ∈ bs2, b < 256) →
    bytesToBits bs1 = bytesToBits bs2 → bs1 = bs2 := by
  intro bs1
  induction bs1 with
  | nil =>
    intro bs2 _ _ heq
    cases bs2 with
    | nil => rfl
    | cons b rest =>
      have hlen := congrArg List.length heq
      rw [bytesToBits_length, bytesToBits_length] at hlen
      simp at hlen
  | cons b1 rest1 ih =>
    intro bs2 h1 h2 heq
    cases bs2 with
    | nil =>
      have hlen := congrArg List.length heq
      rw [bytesToBits_length, bytesToBits_length] at hlen
      simp at hlen
    | cons b2 rest2 =>
      have heq' : byteBits b1 ++ bytesToBits rest1
          = byteBits b2 ++ bytesToBits rest2 := heq
      obtain ⟨hhead, htail⟩ := List.append_inj heq'
        (by rw [byteBits_length, byteBits_length])
      have hb : b1 = b2 := by
        have hv1 := bitsToNat_byteBits (h1 b1 (List.mem_cons_self _ _))
        have hv2 := bitsToNat_byteBits (h2 b2 (List.mem_cons_self _ _))
        rw [← hv1, ← hv2, hhead]
      subst hb
      rw [ih rest2 (fun x hx => h1 x (List.mem_cons_of_mem _ hx))
        (fun x hx => h2 x (List.mem_cons_of_mem _ hx)) htail]

theorem chunks5_length (l : List Bool) : (chunks5 l).length = (l.length + 4) / 5 := by
  induction l using chunks5.induct with
  | case6 a b c d e rest ih =>
    simp only [chunks5, List.length_cons, ih]
    omega
  | _ => simp [chunks5]

theorem chunks5_mem_length (l : List Bool) : ∀ c ∈ chunks5 l, c.length = 5 := by
  induction l using chunks5.induct with
  | case6 a b c d e rest ih =>
    intro x hx
    rcases List.mem_cons.mp hx with rfl | hx
    · rfl
    · exact ih x hx
  | _ =>
    intro x hx
    simp [chunks5] at hx
    try simp [hx]

theorem chunks5_flatten (l : List Bool) :
    ∃ pad, (chunks5 l).flatten = l ++ List.replicate pad false := by
  induction l using chunks5.induct with
  | case1 => exact ⟨0, by simp [chunks5]⟩
  | case2 a => exact ⟨4, by simp [chunks5, List.replicate]⟩
  | case3 a b => exact ⟨3, by simp [chunks5, List.replicate]⟩
  | case4 a b c => exact ⟨2, by simp [chunks5, List.replicate]⟩
  | case5 a b c d => exact ⟨1, by simp [chunks5, List.replicate]⟩
  | case6 a b c d e rest ih =>
    obtain ⟨pad, hpad⟩ := ih
    exact ⟨pad, by simp [chunks5, hpad]⟩

theorem chunkChar_bits_inj : ∀ (a b c d e a' b' c' d' e' : Bool),
    Char.toLower (b32Char (bitsToNat [a, b, c, d, e]))
      = Char.toLower (b32Char (bitsToNat [a', b', c', d', e'])) →
    a = a' ∧ b = b' ∧ c = c' ∧ d = d' ∧ e = e' := by
  decide

theorem chunkChar_inj {c1 c2 : List Bool} (h1 : c1.length = 5) (h2 : c2.length = 5)
    (heq : Char.toLower (b32Char (bitsToNat c1))
      = Char.toLower (b32Char (bitsToNat c2))) : c1 = c2 := by
  rcases c1 with _ | ⟨a, _ | ⟨b, _ | ⟨c, _ | ⟨d, _ | ⟨e, _ | ⟨x, tl⟩⟩⟩⟩⟩⟩ <;>
    simp at h1
  rcases c2 with _ | ⟨a', _ | ⟨b', _ | ⟨c', _ | ⟨d', _ | ⟨e', _ | ⟨x', tl'⟩⟩⟩⟩⟩⟩ <;>
    simp at h2
  obtain ⟨rfl, rfl, rfl, rfl, rfl⟩ := chunkChar_bits_inj a b c d e a' b' c' d' e' heq
  rfl

theorem map_chunkChar_inj : ∀ (l1 l2 : List (List Bool)),
    (∀ c ∈ l1, c.length = 5) → (∀ c ∈ l2, c.length = 5) →
    l1.map (fun c => Char.toLower (b32Char (bitsToNat c)))
      = l2.map (fun c => Char.toLower (b32Char (bitsToNat c))) →
    l1 = l2 := by
  intro l1
  induction l1 with
  | nil =>
    intro l2 _ _ heq
    cases l2 with
    | nil => rfl
    | cons c rest => simp at heq
  | cons c1 rest1 ih =>
    intro l2 h1 h2 heq
    cases l2 with
    | nil => simp at heq
    | cons c2 rest2 =>
      simp only [List.map_cons, List.cons.injEq] at heq
      have hc : c1 = c2 := chunkChar_inj (h1 c1 (List.mem_cons_self _ _))
        (h2 c2 (List.mem_cons_self _ _)) heq.1
      subst hc
      rw [ih rest2 (fun x hx => h1 x (List.mem_cons_of_mem _ hx))
        (fun x hx => h2 x (List.mem_cons_of_mem _ hx)) heq.2]

theorem b32Char_mem_fin : ∀ n : Fin 32, b32Char n.val ∈ hexAlphabet := by
  decide

theorem b32Char_mem (n : Nat) : b32Char n ∈ hexAlphabet := by
  by_cases h : n < 32
  · exact b32Char_mem_fin ⟨n, h⟩
  · have hlen : hexAlphabet.length ≤ n := by
      simp [hexAlphabet]
      omega
    unfold b32Char
    rw [List.getD_eq_default _ _ hlen]
    decide

theorem hexAlphabet_toLower : ∀ c ∈ hexAlphabet,
    (Char.toLower c).isUpper = false
    ∧ Char.toLower (Char.toLower c) = Char.toLower c := by
  decide

/-- **C9.**  The session-identifier → external-calendar-identifier mapping
(the `Id` computed by `makeGCalEvent` through `idEncoder`) produces output
that is entirely lowercase (no character is uppercase; lowering is the
identity on it), and it is injective: two distinct session identifiers
(byte strings) never map to the same external identifier.  Determinism is
by construction: the identifier is a pure function of the session
identifier's bytes and of nothing else. -/
theorem makeGCalEventId_lowercase_injective :
    (∀ (bs : List Nat), ∀ ch ∈ makeGCalEventId bs,
      ch.isUpper = false ∧ Char.toLower ch = ch)
    ∧ ∀ (bs1 bs2 : List Nat), (∀ b ∈ bs1, b < 256) → (∀ b ∈ bs2, b < 256) →
        makeGCalEventId bs1 = makeGCalEventId bs2 → bs1 = bs2 := by
  constructor
  · intro bs ch hch
    unfold makeGCalEventId idEncoderEncodeToString at hch
    rw [List.map_map] at hch
    obtain ⟨c, _, rfl⟩ := List.mem_map.mp hch
    exact hexAlphabet_toLower _ (b32Char_mem (bitsToNat c))
  · intro bs1 bs2 h1 h2 heq
    unfold makeGCalEventId idEncoderEncodeToString at heq
    rw [List.map_map, List.map_map] at heq
    have hlen : (chunks5 (bytesToBits bs1)).length
        = (chunks5 (bytesToBits bs2)).length := by
      have := congrArg List.length heq
      simpa using this
    have hblen : (bytesToBits bs1).length = (bytesToBits bs2).length := by
      rw [chunks5_length, chunks5_length] at hlen
      rw [bytesToBits_length, bytesToBits_length] at hlen ⊢
      omega
    have hchunks : chunks5 (bytesToBits bs1) = chunks5 (bytesToBits bs2) :=
      map_chunkChar_inj _ _ (chunks5_mem_length _) (chunks5_mem_length _) heq
    have hbits : bytesToBits bs1 = bytesToBits bs2 := by
      obtain ⟨p1, hj1⟩ := chunks5_flatten (bytesToBits bs1)
      obtain ⟨p2, hj2⟩ := chunks5_flatten (bytesToBits bs2)
      have hj : bytesToBits bs1 ++ List.replicate p1 false
          = bytesToBits bs2 ++ List.replicate p2 false := by
        rw [← hj1, ← hj2, hchunks]
      have htake := congrArg (List.take (bytesToBits bs1).length) hj
      rw [List.take_left] at htake
      rw [htake, hblen, List.take_left]
    exact bytesToBits_inj bs1 bs2 h1 h2 hbits

/-- Concrete witness for C9: the bytes of `"hi"` encode to `d1kg`
(lowercase), and injectivity applied at two concrete byte strings. -/
theorem makeGCalEventId_lowercase_injective_witness :
    makeGCalEventId [104, 105] = ['d', '1', 'k', 'g']
    ∧ (∀ b ∈ [104, 105], b < 256)
    ∧ (makeGCalEventId [104, 105] = makeGCalEventId [104, 106]
        → [104, 105] = [104, 106])
    ∧ (∀ ch ∈ makeGCalEventId [104, 105], ch.isUpper = false ∧ Char.toLower ch = ch) := by
  refine ⟨by decide, by decide, ?_, ?_⟩
  · exact makeGCalEventId_lowercase_injective.2 [104, 105] [104, 106]
      (by decide) (by decide)
  · exact makeGCalEventId_lowercase_injective.1 [104, 105]

end IceScraper
